import Mathlib

/-!
Verification development for the endee-rag-system pipeline
(`src/document_processor.py`, `src/embedding_service.py`,
`src/endee_client.py`, `src/rag_pipeline.py`).

Texts are embedded as `List Char`; Python's float values are opaque data for
the plumbing code and are modelled as rationals there, while the numeric
cosine-similarity helper is modelled over the real numbers.
-/

/-- Text is modelled as a list of characters. -/
abbrev Str := List Char

/-- Python `str.split()` / `str.strip()` whitespace class
(space, tab, newline, carriage return, vertical tab, form feed). -/
def isPySpace (c : Char) : Bool :=
  c = ' ' || c = '\t' || c = '\n' || c = '\r' || c = '\x0b' || c = '\x0c'

/-- Sentence-boundary punctuation of `DocumentProcessor._split_into_sentences`
(the regex class in `re.split` over periods, exclamation and question marks). -/
def isPunct (c : Char) : Bool :=
  c = '.' || c = '!' || c = '?'

/-- Worker for Python `str.split()` with no separator: `acc` holds the
(reversed) word currently being read. -/
def pyWordsAux : List Char → List Char → List Str
  | [], acc => if acc.isEmpty then [] else [acc.reverse]
  | c :: cs, acc =>
      if isPySpace c then
        if acc.isEmpty then pyWordsAux cs [] else acc.reverse :: pyWordsAux cs []
      else
        pyWordsAux cs (c :: acc)

/-- Python `text.split()`: maximal runs of non-whitespace characters. -/
def pyWords (s : Str) : List Str := pyWordsAux s []

/-- Python `" ".join(words)`. -/
def joinSpace : List Str → Str
  | [] => []
  | [w] => w
  | w :: ws => w ++ ' ' :: joinSpace ws

/-- Python `str.strip()`: drop leading and trailing whitespace. -/
def trim (s : Str) : Str :=
  ((s.dropWhile isPySpace).reverse.dropWhile isPySpace).reverse

/-- The chunker's word counting, `len(text.split())`. -/
def wordCount (s : Str) : Nat := (pyWords s).length

/-- `EmbeddingService._clean_text`: collapse whitespace by split/join, then
truncate to at most 8000 words (the conservative token limit in the source). -/
def cleanText (t : Str) : Str :=
  if t.isEmpty then []
  else
    let cleaned := joinSpace (pyWords t)
    let words := pyWords cleaned
    if 8000 < words.length then joinSpace (words.take 8000) else cleaned

/-- Worker for `re.split` over runs of boundary punctuation.  The state is
`some cur` while a piece (reversed in `cur`) is being read, and `none` right
after a punctuation run, so that consecutive punctuation marks form a single
separator exactly as the `+`-quantified regex does. -/
def spGo : List Char → Option (List Char) → List Str
  | [], some cur => [cur.reverse]
  | [], none => [[]]
  | c :: cs, some cur =>
      if isPunct c then cur.reverse :: spGo cs none else spGo cs (some (c :: cur))
  | c :: cs, none =>
      if isPunct c then spGo cs none else spGo cs (some [c])

/-- `re.split` over runs of sentence punctuation, as used by
`DocumentProcessor._split_into_sentences`. -/
def splitPunct (t : Str) : List Str := spGo t (some [])

/-- `DocumentProcessor._split_into_sentences`: split at punctuation runs,
strip each piece, and keep only pieces strictly longer than 10 characters. -/
def splitIntoSentences (t : Str) : List Str :=
  ((splitPunct t).map trim).filter (fun s => !s.isEmpty && decide (10 < s.length))

/-- One chunk as produced by `DocumentProcessor._create_chunk`.  The constant
document-metadata fields (`source`, `extraction_method`) are threaded through
unchanged by the source and are omitted; `sentences` is the sentence list the
source passes to `_create_chunk` (recorded there as `sentence_count`). -/
structure Chunk where
  chunk_id : Nat
  text : Str
  page : Nat
  word_count : Nat
  sentence_count : Nat
  sentences : List Str
deriving DecidableEq, Repr, Inhabited

/-- `DocumentProcessor._create_chunk`: the stored text is stripped, the word
count is taken on the unstripped buffer (`len(text.split())`, identical after
stripping), and the sentence count is the length of the buffer's sentence
list. -/
def mkChunk (cid : Nat) (text : Str) (pg : Nat) (sentences : List Str) : Chunk :=
  { chunk_id := cid
    text := trim text
    page := pg
    word_count := wordCount text
    sentence_count := sentences.length
    sentences := sentences }

/-- The "start new chunk with overlap" step of `split_text_into_chunks`: when
`chunk_overlap > 0` and the closed buffer is non-empty, the new buffer is
seeded with the last `overlap` sentences (`current_sentences[-overlap:]`)
before the triggering sentence; otherwise it holds the triggering sentence
alone.  Returns the new `(current_chunk, current_sentences)` pair. -/
def seedBuffer (ov : Nat) (cs : List Str) (s : Str) : Str × List Str :=
  if 0 < ov ∧ ¬cs.isEmpty then
    (joinSpace (cs.drop (cs.length - ov)) ++ ' ' :: s, cs.drop (cs.length - ov) ++ [s])
  else (s, [s])

/-- The per-page sentence loop of `DocumentProcessor.split_text_into_chunks`.
State: `cid` is the running chunk id, `cur` the accumulated chunk text
(`current_chunk`), `cs` the accumulated sentence list (`current_sentences`).
Returns the emitted chunks of the page together with the next chunk id. -/
def chunkLoop (size ov pg : Nat) : Nat → Str → List Str → List Str → List Chunk × Nat
  | cid, cur, cs, [] =>
      if cur.isEmpty then ([], cid) else ([mkChunk cid cur pg cs], cid + 1)
  | cid, cur, cs, s :: rest =>
      let test := if cur.isEmpty then s else cur ++ ' ' :: s
      if wordCount test ≤ size then
        chunkLoop size ov pg cid test (cs ++ [s]) rest
      else
        let emitted := if cur.isEmpty then ([] : List Chunk) else [mkChunk cid cur pg cs]
        let cid1 := if cur.isEmpty then cid else cid + 1
        let seeded := seedBuffer ov cs s
        let res := chunkLoop size ov pg cid1 seeded.1 seeded.2 rest
        (emitted ++ res.1, res.2)

/-- Processing of one page inside `split_text_into_chunks`: sentence split
followed by the accumulation loop started on an empty buffer. -/
def chunkPage (size ov pg cid : Nat) (text : Str) : List Chunk × Nat :=
  chunkLoop size ov pg cid [] [] (splitIntoSentences text)

/-- The page loop of `split_text_into_chunks`, threading the global chunk id
across pages. -/
def splitPages (size ov : Nat) : Nat → List (Nat × Str) → List Chunk
  | _, [] => []
  | cid, (pg, text) :: rest =>
      let res := chunkPage size ov pg cid text
      res.1 ++ splitPages size ov res.2 rest

/-- `DocumentProcessor.split_text_into_chunks` on a document given as its
`content` list of `(page, text)` pairs. -/
def splitTextIntoChunks (size ov : Nat) (content : List (Nat × Str)) : List Chunk :=
  splitPages size ov 0 content

/-- Embedding vectors; the provider's float entries are opaque to the batching
code and are modelled as rationals. -/
abbrev Vec := List ℚ

/-- The zero vector `[0.0] * dim` used for empty inputs and failed batches. -/
def zeroVec (dim : Nat) : Vec := List.replicate dim 0

/-- The reconstruction loop of `EmbeddingService._process_batch`: walk the
cleaned texts in index order, taking the next provider result at each valid
(non-empty) position and a zero vector elsewhere.  The source iterates indices
and tests `idx in valid_indices`; since `valid_indices` are exactly the
positions whose cleaned text is non-empty, that is this walk.  `none` models
the `StopIteration` raised when the provider returned fewer results than valid
texts (caught by the batch's `except`). -/
def reinterleave (dim : Nat) : List Str → List Vec → Option (List Vec)
  | [], _ => some []
  | c :: cs, resp =>
      if c.isEmpty then
        (reinterleave dim cs resp).map (fun out => zeroVec dim :: out)
      else
        match resp with
        | [] => none
        | v :: vs => (reinterleave dim cs vs).map (fun out => v :: out)

/-- `EmbeddingService._process_batch`.  The provider call
`client.embeddings.create` is a parameter; `none` models a raised exception
(network/provider error), which the source converts into a whole batch of zero
vectors. -/
def processBatch (dim : Nat) (provider : List Str → Option (List Vec)) (texts : List Str) : List Vec :=
  let cleaned := texts.map cleanText
  let valids := cleaned.filter (fun c => !c.isEmpty)
  if valids.isEmpty then List.replicate texts.length (zeroVec dim)
  else
    match provider valids with
    | none => List.replicate texts.length (zeroVec dim)
    | some resp =>
        match reinterleave dim cleaned resp with
        | some out => out
        | none => List.replicate texts.length (zeroVec dim)

/-- The batching loop of `EmbeddingService.generate_embeddings_batch`
(`for i in range(0, len(texts), batch_size)`), written with an explicit fuel
argument only to make the recursion structural; `fuel = texts.length` steps
always suffice when `0 < bs`.  (Python raises for `batch_size = 0`; that case
is outside every claim.) -/
def genAux (dim : Nat) (provider : List Str → Option (List Vec)) (bs : Nat) :
    Nat → List Str → List Vec
  | 0, _ => []
  | _, [] => []
  | fuel + 1, t :: ts =>
      processBatch dim provider ((t :: ts).take bs) ++
        genAux dim provider bs fuel ((t :: ts).drop bs)

/-- `EmbeddingService.generate_embeddings_batch`. -/
def generateEmbeddingsBatch (dim : Nat) (provider : List Str → Option (List Vec))
    (bs : Nat) (texts : List Str) : List Vec :=
  genAux dim provider bs texts.length texts

/-- `EmbeddingService.generate_embedding` for a single text: clean, answer a
zero vector for empty cleaned text without calling the provider, otherwise
return the provider's single embedding.  `none` models the re-raised provider
exception. -/
def generateEmbedding (dim : Nat) (provider1 : Str → Option Vec) (t : Str) : Option Vec :=
  let cleaned := cleanText t
  if cleaned.isEmpty then some (zeroVec dim) else provider1 cleaned

/-- A chunk record as consumed by
`EmbeddingService.generate_embeddings_for_chunks`: the fields of the
dictionaries built by `_create_chunk`, with the metadata sub-dictionary kept
abstract as an association list. -/
structure ChunkIn where
  chunk_id : Nat
  text : Str
  metadata : List (String × String)
deriving DecidableEq, Repr

/-- An enriched chunk: the copy of an input chunk with exactly the fields
`embedding`, `embedding_model` and `embedding_dimension` added. -/
structure ChunkOut where
  chunk_id : Nat
  text : Str
  metadata : List (String × String)
  embedding : Vec
  embedding_model : String
  embedding_dimension : Nat
deriving DecidableEq, Repr

/-- `EmbeddingService.generate_embeddings_for_chunks`: embed the chunk texts
with the default batch size 100, then zip chunks with embeddings, copying each
chunk and attaching the three embedding fields. -/
def generateEmbeddingsForChunks (dim : Nat) (provider : List Str → Option (List Vec))
    (model : String) (chunks : List ChunkIn) : List ChunkOut :=
  let texts := chunks.map (fun c => c.text)
  let embeddings := generateEmbeddingsBatch dim provider 100 texts
  (chunks.zip embeddings).map fun ce =>
    { chunk_id := ce.1.chunk_id
      text := ce.1.text
      metadata := ce.1.metadata
      embedding := ce.2
      embedding_model := model
      embedding_dimension := ce.2.length }

/-- Dot product of `EmbeddingService.cosine_similarity` (`np.dot`), with the
float entries modelled as real numbers. -/
noncomputable def dotR (a b : List ℝ) : ℝ := (List.zipWith (fun x y => x * y) a b).sum

/-- Euclidean norm (`np.linalg.norm`): square root of the sum of squares. -/
noncomputable def normR (a : List ℝ) : ℝ := Real.sqrt (dotR a a)

/-- `EmbeddingService.cosine_similarity`: zero when either norm is zero, else
the normalized dot product. -/
noncomputable def cosineSimilarity (a b : List ℝ) : ℝ :=
  if normR a = 0 ∨ normR b = 0 then 0 else dotR a b / (normR a * normR b)

/-- State of the external Endee vector database, modelled at the interface
boundary of the spec (section 6): reachability plus the named collections with
their dimensions. -/
structure EndeeState where
  reachable : Bool
  collections : List (String × Nat)
deriving DecidableEq, Repr

/-- External vector-database transport (spec section 6): `POST /collections`
answers 201 when the collection is newly created, 409 when one of that name
already exists; an unreachable store raises a transport error (`none`). -/
def endeePostCollections (st : EndeeState) (name : String) (dim : Nat) :
    Option (Nat × EndeeState) :=
  if !st.reachable then none
  else if name ∈ st.collections.map Prod.fst then some (409, st)
  else some (201, { st with collections := st.collections ++ [(name, dim)] })

/-- `EndeeClient.create_collection_sync`: status 200/201 and 409 are success,
any other status is failure, and a raised transport error is caught and turned
into failure. -/
def createCollectionSync (st : EndeeState) (name : String) (dim : Nat) : Bool × EndeeState :=
  match endeePostCollections st name dim with
  | none => (false, st)
  | some (status, st1) =>
      if status = 200 ∨ status = 201 then (true, st1)
      else if status = 409 then (true, st1)
      else (false, st1)

/-- `EndeeClient.health_check_sync`: `GET /health` answers 200 exactly when the
store is reachable (external model, spec section 6). -/
def healthCheckSync (st : EndeeState) : Bool := st.reachable

/-- State of `VectorStore`: its `initialized` flag (field named `ready` here;
the Python attribute is `self.initialized`). -/
structure VSState where
  ready : Bool
deriving DecidableEq, Repr

/-- `VectorStore.initialize`: fail when the health check fails, otherwise
create the collection, set the flag on success, and return the creation
result.  Returns (result, store state, vector-store state). -/
def vsInit (st : EndeeState) (vs : VSState) (name : String) (dim : Nat) :
    Bool × EndeeState × VSState :=
  if !healthCheckSync st then (false, st, vs)
  else
    let res := createCollectionSync st name dim
    (res.1, res.2, if res.1 then { ready := true } else vs)

/-- The message of the `RuntimeError` raised by the pipeline's
not-initialized guards. -/
def notInitMsg : String := "RAG pipeline not initialized. Call initialize() first."

/-- `RAGPipeline.search_documents`.  The not-initialized guard raises
(`Except.error`) before the `try` block; inside the `try`, a failing
`generate_embedding` call (`none`) is caught and degraded to `[]`, and the
vector-store search (which itself never raises) supplies the results.  The
result element type is abstract. -/
def searchDocuments (SR : Type) (ready : Bool) (embedQuery : Str → Option Vec)
    (store : Vec → List SR) (query : Str) : Except String (List SR) :=
  if !ready then Except.error notInitMsg
  else
    match embedQuery query with
    | none => Except.ok []
    | some qv => Except.ok (store qv)

/-- `RAGPipeline.process_pdf_file`.  The not-initialized guard raises before
the `try` block; the body of the `try` catches every exception and returns a
result dictionary (abstracted here as an opaque function, since only the guard
is claim-relevant). -/
def processPdfFile {R : Type} (ready : Bool) (body : Unit → R) : Except String R :=
  if !ready then Except.error notInitMsg else Except.ok (body ())

/-- `RAGPipeline.process_pdf_bytes`, same guard structure as
`process_pdf_file`. -/
def processPdfBytes {R : Type} (ready : Bool) (body : Unit → R) : Except String R :=
  if !ready then Except.error notInitMsg else Except.ok (body ())

/-- The invariant every output of `_split_into_sentences` satisfies: non-empty,
equal to its stripped form, strictly longer than 10 characters, and free of
sentence-boundary punctuation. -/
def goodSentence (s : Str) : Prop :=
  s ≠ [] ∧ trim s = s ∧ 10 < s.length ∧ ∀ c ∈ s, isPunct c = false

/-- The page text of the spec's worked scenario (section 8). -/
def mlText : Str := "ML is great. AI is powerful. Deep learning is a subset.".data

/-- Text whose two sentences together fill a zero-overlap chunk exactly. -/
def twoSentenceText : Str := "ab cd efgh ij. kl mn opqr st.".data

/-- Helper: a reachable store makes `create_collection_sync` succeed and leave
the store reachable with the collection present. -/
theorem ccs_of_reachable (st : EndeeState) (name : String) (dim : Nat)
    (h : st.reachable = true) :
    (createCollectionSync st name dim).1 = true ∧
    (createCollectionSync st name dim).2.reachable = true ∧
    name ∈ (createCollectionSync st name dim).2.collections.map Prod.fst := by
  by_cases hc : name ∈ st.collections.map Prod.fst
  · simp only [createCollectionSync, endeePostCollections, h, Bool.not_true,
      Bool.false_eq_true, if_false, if_pos hc]
    norm_num
    exact ⟨h, by simpa using hc⟩
  · simp only [createCollectionSync, endeePostCollections, h, Bool.not_true,
      Bool.false_eq_true, if_false, if_neg hc]
    norm_num

/-- Helper: when the collection already exists, the 409 answer is mapped to
success and the store is left unchanged. -/
theorem ccs_of_exists (st : EndeeState) (name : String) (dim : Nat)
    (h : st.reachable = true) (hc : name ∈ st.collections.map Prod.fst) :
    createCollectionSync st name dim = (true, st) := by
  simp only [createCollectionSync, endeePostCollections, h, Bool.not_true,
    Bool.false_eq_true, if_false, if_pos hc]
  norm_num

/-- Helper: on a reachable store with successful creation, `initialize` reports
success and sets the flag. -/
theorem vsInit_of_reachable (st : EndeeState) (vs : VSState) (name : String) (dim : Nat)
    (h : st.reachable = true) (h1 : (createCollectionSync st name dim).1 = true) :
    vsInit st vs name dim = (true, (createCollectionSync st name dim).2, { ready := true }) := by
  simp only [vsInit, healthCheckSync, h, Bool.not_true, Bool.false_eq_true, if_false, h1, if_true]

/-- C6: `VectorStore.initialize` is idempotent at the caller interface: on a
reachable store, a 409 "already exists" answer counts as success, so two calls
in a row both return success, leave the flag set, and the second call does not
change the stored collections. -/
theorem c6_initialize_idempotent (st : EndeeState) (vs : VSState) (name : String) (dim : Nat)
    (h : st.reachable = true) :
    (vsInit st vs name dim).1 = true ∧
    (vsInit (vsInit st vs name dim).2.1 (vsInit st vs name dim).2.2 name dim).1 = true ∧
    (vsInit (vsInit st vs name dim).2.1 (vsInit st vs name dim).2.2 name dim).2.2.ready = true ∧
    (vsInit (vsInit st vs name dim).2.1 (vsInit st vs name dim).2.2 name dim).2.1
      = (vsInit st vs name dim).2.1 := by
  obtain ⟨h1, h2, h3⟩ := ccs_of_reachable st name dim h
  have e1 := vsInit_of_reachable st vs name dim h h1
  have e2 : vsInit (createCollectionSync st name dim).2 { ready := true } name dim
      = (true, (createCollectionSync st name dim).2, { ready := true }) := by
    have e3 := vsInit_of_reachable (createCollectionSync st name dim).2 { ready := true }
      name dim h2 (by rw [ccs_of_exists _ _ dim h2 h3])
    rw [ccs_of_exists _ _ dim h2 h3] at e3
    exact e3
  rw [e1]
  simp only [e2]
  exact ⟨trivial, trivial, trivial, trivial⟩

/-- Witness for C6 at a concrete reachable store with no collections. -/
theorem c6_initialize_idempotent_witness :
    (vsInit ⟨true, []⟩ ⟨false⟩ "documents" 1536).1 = true ∧
    (vsInit (vsInit ⟨true, []⟩ ⟨false⟩ "documents" 1536).2.1
        (vsInit ⟨true, []⟩ ⟨false⟩ "documents" 1536).2.2 "documents" 1536).1 = true ∧
    (vsInit (vsInit ⟨true, []⟩ ⟨false⟩ "documents" 1536).2.1
        (vsInit ⟨true, []⟩ ⟨false⟩ "documents" 1536).2.2 "documents" 1536).2.2.ready = true ∧
    (vsInit (vsInit ⟨true, []⟩ ⟨false⟩ "documents" 1536).2.1
        (vsInit ⟨true, []⟩ ⟨false⟩ "documents" 1536).2.2 "documents" 1536).2.1
      = (vsInit ⟨true, []⟩ ⟨false⟩ "documents" 1536).2.1 :=
  c6_initialize_idempotent ⟨true, []⟩ ⟨false⟩ "documents" 1536 rfl

/-- C3 counterexample: calling `search_documents` on an uninitialized pipeline
raises the not-initialized `RuntimeError` instead of returning an empty list —
the guard sits before the `try` block that degrades search failures to `[]`. -/
theorem c3_counterexample :
    searchDocuments Nat false (fun _ => none) (fun _ => []) "query".data
        = Except.error notInitMsg ∧
      searchDocuments Nat false (fun _ => none) (fun _ => []) "query".data
        ≠ Except.ok [] := by
  constructor
  · rfl
  · intro hcontra
    exact Except.noConfusion hcontra

/-- C3 amended: on an uninitialized pipeline, `search_documents` raises the
same not-initialized error as `process_pdf_file` and `process_pdf_bytes`;
once initialized, a failing embedding call degrades search to the empty
list. -/
theorem c3_uninitialized_behavior (SR R R2 : Type) (embed : Str → Option Vec)
    (store : Vec → List SR) (q : Str) (body : Unit → R) (body2 : Unit → R2) :
    searchDocuments SR false embed store q = Except.error notInitMsg ∧
    processPdfFile false body = Except.error notInitMsg ∧
    processPdfBytes false body2 = Except.error notInitMsg ∧
    (∀ store2 : Vec → List SR, ∀ q2 : Str,
      searchDocuments SR true (fun _ => none) store2 q2 = Except.ok []) := by
  refine ⟨rfl, rfl, rfl, fun store2 q2 => ?_⟩
  rfl

/-- Witness for C3's amended claim at concrete instantiations. -/
theorem c3_uninitialized_behavior_witness :
    searchDocuments Nat false (fun _ => some (zeroVec 2)) (fun _ => [7]) "q".data
        = Except.error notInitMsg ∧
    processPdfFile false (fun _ => (0 : Nat)) = Except.error notInitMsg ∧
    processPdfBytes false (fun _ => (1 : Nat)) = Except.error notInitMsg ∧
    (∀ store2 : Vec → List Nat, ∀ q2 : Str,
      searchDocuments Nat true (fun _ => none) store2 q2 = Except.ok []) :=
  c3_uninitialized_behavior Nat Nat Nat (fun _ => some (zeroVec 2)) (fun _ => [7]) "q".data
    (fun _ => (0 : Nat)) (fun _ => (1 : Nat))

/-- Helper: `str.split()` of an all-whitespace text yields no words. -/
theorem pyWordsAux_allspace : ∀ t : Str, (∀ c ∈ t, isPySpace c = true) → pyWordsAux t [] = [] := by
  intro t
  induction t with
  | nil => intro _; rfl
  | cons c cs ih =>
      intro h
      have hc := h c (List.mem_cons_self _ _)
      simp only [pyWordsAux, hc, if_true, List.isEmpty_nil]
      exact ih (fun x hx => h x (List.mem_cons_of_mem _ hx))

/-- Helper: `_clean_text` of an all-whitespace text is the empty string. -/
theorem cleanText_allspace (t : Str) (h : ∀ c ∈ t, isPySpace c = true) : cleanText t = [] := by
  by_cases ht : t = []
  · simp [cleanText, ht]
  · have hw : pyWordsAux t [] = [] := pyWordsAux_allspace t h
    simp only [cleanText, pyWords, hw, List.isEmpty_iff, ht, if_false]
    simp [joinSpace, pyWordsAux]

/-- C8: `generate_embedding` on an empty or whitespace-only text returns the
zero vector of the configured dimension, and the provider is never consulted
on that path (the result is the same for every provider). -/
theorem c8_empty_text_zero_vector (dim : Nat) (provider1 : Str → Option Vec) (t : Str)
    (h : ∀ c ∈ t, isPySpace c = true) :
    generateEmbedding dim provider1 t = some (zeroVec dim) ∧
    (zeroVec dim).length = dim ∧
    (∀ p2 : Str → Option Vec, generateEmbedding dim provider1 t = generateEmbedding dim p2 t) := by
  have hc : cleanText t = [] := cleanText_allspace t h
  refine ⟨?_, by simp [zeroVec], fun p2 => ?_⟩
  · simp [generateEmbedding, hc]
  · simp [generateEmbedding, hc]

/-- Witness for C8 on the three-space text. -/
theorem c8_empty_text_zero_vector_witness :
    generateEmbedding 1536 (fun _ => none) "   ".data = some (zeroVec 1536) ∧
    (zeroVec 1536).length = 1536 ∧
    (∀ p2 : Str → Option Vec,
      generateEmbedding 1536 (fun _ => none) "   ".data = generateEmbedding 1536 p2 "   ".data) :=
  c8_empty_text_zero_vector 1536 (fun _ => none) "   ".data (by decide)

/-- Helper: the elementwise product of a vector with itself is the list of
squares. -/
theorem zipWith_mul_self (v : List ℝ) :
    List.zipWith (fun x y => x * y) v v = v.map (fun x => x * x) := by
  induction v with
  | nil => rfl
  | cons x xs ih => simp [List.zipWith, ih]

/-- Helper: a vector's dot product with itself is non-negative. -/
theorem dotR_self_nonneg (v : List ℝ) : 0 ≤ dotR v v := by
  rw [dotR, zipWith_mul_self]
  apply List.sum_nonneg
  intro x hx
  obtain ⟨y, _, rfl⟩ := List.mem_map.mp hx
  exact mul_self_nonneg y

/-- Helper: a vector with a non-zero entry has positive self dot product. -/
theorem dotR_self_pos (v : List ℝ) (x : ℝ) (hx : x ∈ v) (hx0 : x ≠ 0) : 0 < dotR v v := by
  rw [dotR, zipWith_mul_self]
  have h1 : 0 < x * x := mul_self_pos.mpr hx0
  have h2 : x * x ≤ (v.map (fun y => y * y)).sum := by
    apply List.single_le_sum
    · intro y hy
      obtain ⟨z, _, rfl⟩ := List.mem_map.mp hy
      exact mul_self_nonneg z
    · exact List.mem_map_of_mem _ hx
  linarith

/-- Helper: the zero vector has norm zero. -/
theorem normR_replicate_zero (n : Nat) : normR (List.replicate n (0 : ℝ)) = 0 := by
  have hd : dotR (List.replicate n (0 : ℝ)) (List.replicate n (0 : ℝ)) = 0 := by
    rw [dotR, zipWith_mul_self, List.map_replicate]
    simp
  rw [normR, hd, Real.sqrt_zero]

/-- C7: cosine similarity of a non-zero vector with itself is exactly 1; it is
exactly 0 whenever either argument has zero norm (in particular for a zero
vector); otherwise, for equal-length vectors, it is the dot product divided by
the product of the norms.  Floating-point arithmetic is modelled as exact real
arithmetic. -/
theorem c7_cosine_similarity :
    (∀ v : List ℝ, (∃ x ∈ v, x ≠ 0) → cosineSimilarity v v = 1) ∧
    (∀ a b : List ℝ, normR a = 0 ∨ normR b = 0 → cosineSimilarity a b = 0) ∧
    (∀ (n : Nat) (b : List ℝ), cosineSimilarity (List.replicate n 0) b = 0) ∧
    (∀ a b : List ℝ, a.length = b.length → normR a ≠ 0 → normR b ≠ 0 →
      cosineSimilarity a b = dotR a b / (normR a * normR b)) := by
  refine ⟨?_, ?_, ?_, ?_⟩
  · intro v hv
    obtain ⟨x, hx, hx0⟩ := hv
    have hd : 0 < dotR v v := dotR_self_pos v x hx hx0
    have hn : normR v ≠ 0 := by
      rw [normR]
      exact (Real.sqrt_ne_zero (le_of_lt hd)).mpr (ne_of_gt hd)
    rw [cosineSimilarity, if_neg (by tauto)]
    rw [normR, Real.mul_self_sqrt (le_of_lt hd)]
    exact div_self (ne_of_gt hd)
  · intro a b h
    rw [cosineSimilarity, if_pos h]
  · intro n b
    rw [cosineSimilarity, if_pos (Or.inl (normR_replicate_zero n))]
  · intro a b _ ha hb
    rw [cosineSimilarity, if_neg (by tauto)]

/-- Witness for C7 at concrete vectors. -/
theorem c7_cosine_similarity_witness :
    cosineSimilarity [(1 : ℝ)] [(1 : ℝ)] = 1 ∧
    cosineSimilarity (List.replicate 2 (0 : ℝ)) [(1 : ℝ), 1] = 0 ∧
    cosineSimilarity [(1 : ℝ)] [(1 : ℝ)] = dotR [(1 : ℝ)] [(1 : ℝ)]
      / (normR [(1 : ℝ)] * normR [(1 : ℝ)]) := by
  have hn : normR [(1 : ℝ)] = 1 := by
    rw [normR]
    have : dotR [(1 : ℝ)] [(1 : ℝ)] = 1 := by
      simp [dotR]
    rw [this, Real.sqrt_one]
  refine ⟨c7_cosine_similarity.1 [(1 : ℝ)] ⟨1, by simp, one_ne_zero⟩,
    c7_cosine_similarity.2.2.1 2 [(1 : ℝ), 1],
    c7_cosine_similarity.2.2.2 [(1 : ℝ)] [(1 : ℝ)] rfl (by rw [hn]; exact one_ne_zero)
      (by rw [hn]; exact one_ne_zero)⟩

/-- Helper: the head of a `dropWhile` result fails the predicate. -/
theorem dropWhile_head_not (p : Char → Bool) (l : List Char) :
    ∀ x ∈ (l.dropWhile p).head?, p x = false := by
  induction l with
  | nil => intro x hx; simp [List.dropWhile] at hx
  | cons c cs ih =>
      intro x hx
      by_cases hc : p c = true
      · rw [List.dropWhile_cons, if_pos hc] at hx
        exact ih x hx
      · rw [List.dropWhile_cons, if_neg hc] at hx
        simp only [List.head?_cons, Option.mem_def, Option.some.injEq] at hx
        subst hx
        simpa using hc

/-- Helper: `dropWhile` is the identity when the head already fails the predicate. -/
theorem dropWhile_eq_self_of_head (p : Char → Bool) (l : List Char)
    (h : ∀ x ∈ l.head?, p x = false) : l.dropWhile p = l := by
  cases l with
  | nil => rfl
  | cons c cs =>
      have hc := h c (by simp)
      rw [List.dropWhile_cons, if_neg (by simp [hc])]

/-- Helper: `dropWhile` is idempotent. -/
theorem dropWhile_idem (p : Char → Bool) (l : List Char) :
    (l.dropWhile p).dropWhile p = l.dropWhile p :=
  dropWhile_eq_self_of_head p _ (dropWhile_head_not p l)

/-- Helper: a non-trivial `dropWhile` keeps the last element. -/
theorem getLast?_dropWhile (p : Char → Bool) (l : List Char)
    (h : l.dropWhile p ≠ []) : (l.dropWhile p).getLast? = l.getLast? := by
  conv_rhs => rw [← List.takeWhile_append_dropWhile (p := p) (l := l)]
  rw [List.getLast?_append]
  rw [Option.or_of_isSome]
  exact List.getLast?_isSome.mpr h

/-- Helper: a stripped string does not start with whitespace. -/
theorem trim_head_not (s : Str) : ∀ x ∈ (trim s).head?, isPySpace x = false := by
  intro x hx
  rw [trim] at hx
  rw [List.head?_reverse] at hx
  rcases hd : ((s.dropWhile isPySpace).reverse.dropWhile isPySpace) with _ | ⟨c, cs⟩
  · rw [hd] at hx; simp at hx
  · have hne : (s.dropWhile isPySpace).reverse.dropWhile isPySpace ≠ [] := by simp [hd]
    rw [getLast?_dropWhile _ _ hne] at hx
    rw [List.getLast?_reverse] at hx
    exact dropWhile_head_not isPySpace s x hx

/-- Helper: a stripped string does not end with whitespace. -/
theorem trim_last_not (s : Str) : ∀ x ∈ (trim s).getLast?, isPySpace x = false := by
  intro x hx
  rw [trim, List.getLast?_reverse] at hx
  exact dropWhile_head_not isPySpace _ x hx

/-- Helper: stripping is the identity on strings with no boundary whitespace. -/
theorem trim_of_clean (l : Str) (h1 : ∀ x ∈ l.head?, isPySpace x = false)
    (h2 : ∀ x ∈ l.getLast?, isPySpace x = false) : trim l = l := by
  rw [trim, dropWhile_eq_self_of_head _ _ h1]
  rw [dropWhile_eq_self_of_head _ _ (by simpa using h2)]
  exact List.reverse_reverse l

/-- Helper: `str.strip()` is idempotent. -/
theorem trim_idem (s : Str) : trim (trim s) = trim s :=
  trim_of_clean _ (trim_head_not s) (trim_last_not s)

/-- Helper: no piece produced by the punctuation split contains a boundary
punctuation character. -/
theorem spGo_no_punct : ∀ (t : List Char) (st : Option (List Char)),
    (∀ cur, st = some cur → ∀ c ∈ cur, isPunct c = false) →
    ∀ s ∈ spGo t st, ∀ c ∈ s, isPunct c = false := by
  intro t
  induction t with
  | nil =>
      intro st hst s hs c hc
      cases st with
      | none => simp [spGo] at hs; subst hs; simp at hc
      | some cur =>
          simp [spGo] at hs
          subst hs
          exact hst cur rfl c (by simpa using hc)
  | cons a as ih =>
      intro st hst s hs c hc
      cases st with
      | none =>
          by_cases ha : isPunct a = true
          · rw [spGo, if_pos ha] at hs
            exact ih none (by intro cur h; cases h) s hs c hc
          · rw [spGo, if_neg ha] at hs
            refine ih (some [a]) ?_ s hs c hc
            intro cur h cc hcc
            cases h
            simp at hcc
            subst hcc
            simpa using ha
      | some cur =>
          by_cases ha : isPunct a = true
          · rw [spGo, if_pos ha] at hs
            rcases List.mem_cons.mp hs with h | h
            · subst h
              exact hst cur rfl c (by simpa using hc)
            · exact ih none (by intro cur2 h2; cases h2) s h c hc
          · rw [spGo, if_neg ha] at hs
            refine ih (some (a :: cur)) ?_ s hs c hc
            intro cur2 h2 cc hcc
            cases h2
            rcases List.mem_cons.mp hcc with h3 | h3
            · subst h3; simpa using ha
            · exact hst cur rfl cc h3

/-- Helper: every sentence returned by `_split_into_sentences` satisfies the
sentence invariant. -/
theorem mem_splitIntoSentences_good (t : Str) (s : Str)
    (hs : s ∈ splitIntoSentences t) : goodSentence s := by
  rw [splitIntoSentences] at hs
  rw [List.mem_filter] at hs
  obtain ⟨hmem, hcond⟩ := hs
  obtain ⟨piece, hpiece, rfl⟩ := List.mem_map.mp hmem
  simp only [Bool.and_eq_true, Bool.not_eq_true', List.isEmpty_eq_false, decide_eq_true_eq] at hcond
  refine ⟨hcond.1, trim_idem piece, hcond.2, ?_⟩
  intro c hc
  have hcmem : c ∈ piece := by
    rw [trim] at hc
    have h1 := List.mem_reverse.mp hc
    have h2 := List.dropWhile_subset isPySpace h1
    have h3 := List.mem_reverse.mp h2
    exact List.dropWhile_subset isPySpace h3
  exact spGo_no_punct t (some []) (by intro cur h c2 hc2; cases h; simp at hc2) piece hpiece c hcmem

/-- Helper: every sentence of a seeded buffer comes from the closed buffer or
is the triggering sentence. -/
theorem seedBuffer_mem (ov : Nat) (cs : List Str) (s : Str) :
    ∀ x ∈ (seedBuffer ov cs s).2, x ∈ cs ∨ x = s := by
  intro x hx
  rw [seedBuffer] at hx
  by_cases hcond : 0 < ov ∧ ¬cs.isEmpty
  · rw [if_pos hcond] at hx
    rcases List.mem_append.mp hx with h | h
    · exact Or.inl (List.drop_subset _ _ h)
    · exact Or.inr (List.mem_singleton.mp h)
  · rw [if_neg hcond] at hx
    exact Or.inr (List.mem_singleton.mp hx)

/-- Helper: the triggering sentence is in the seeded buffer. -/
theorem seedBuffer_self_mem (ov : Nat) (cs : List Str) (s : Str) :
    s ∈ (seedBuffer ov cs s).2 := by
  rw [seedBuffer]
  by_cases hcond : 0 < ov ∧ ¬cs.isEmpty
  · rw [if_pos hcond]
    exact List.mem_append.mpr (Or.inr (List.mem_singleton.mpr rfl))
  · rw [if_neg hcond]
    exact List.mem_singleton.mpr rfl

/-- Helper: with zero overlap, seeding keeps only the triggering sentence. -/
theorem seedBuffer_zero (cs : List Str) (s : Str) : seedBuffer 0 cs s = (s, [s]) := by
  rw [seedBuffer, if_neg]
  simp

/-- Helper: a seeded buffer text is never empty when the sentence is not. -/
theorem seedBuffer_fst_ne (ov : Nat) (cs : List Str) (s : Str) (hs : s ≠ []) :
    (seedBuffer ov cs s).1.isEmpty = false := by
  rw [seedBuffer]
  by_cases hcond : 0 < ov ∧ ¬cs.isEmpty
  · rw [if_pos hcond]
    simp
  · rw [if_neg hcond]
    simpa using hs

/-- Helper: a seeded sentence buffer is never the empty list. -/
theorem seedBuffer_snd_ne (ov : Nat) (cs : List Str) (s : Str) :
    (seedBuffer ov cs s).2 ≠ [] := by
  rw [seedBuffer]
  by_cases hcond : 0 < ov ∧ ¬cs.isEmpty
  · rw [if_pos hcond]
    simp
  · rw [if_neg hcond]
    simp

/-- Helper: the chunk loop only assembles chunks out of sentences drawn from
its initial buffer and its input list. -/
theorem chunkLoop_sentences_prop (P : Str → Prop) (size ov pg : Nat) :
    ∀ (sentences : List Str) (cid : Nat) (cur : Str) (cs : List Str),
    (∀ x ∈ cs, P x) → (∀ x ∈ sentences, P x) →
    ∀ c ∈ (chunkLoop size ov pg cid cur cs sentences).1, ∀ s ∈ c.sentences, P s := by
  intro sentences
  induction sentences with
  | nil =>
      intro cid cur cs hcs _ c hc s hs
      by_cases hcur : cur.isEmpty
      · simp [chunkLoop, hcur] at hc
      · simp only [chunkLoop, hcur, Bool.false_eq_true, if_false, List.mem_singleton] at hc
        subst hc
        exact hcs s hs
  | cons s0 rest ih =>
      intro cid cur cs hcs hsent c hc s hs
      simp only [chunkLoop] at hc
      by_cases htest : wordCount (if cur.isEmpty then s0 else cur ++ ' ' :: s0) ≤ size
      · rw [if_pos htest] at hc
        refine ih cid _ (cs ++ [s0]) ?_ ?_ c hc s hs
        · intro x hx
          rcases List.mem_append.mp hx with h | h
          · exact hcs x h
          · rw [List.mem_singleton] at h
            subst h
            exact hsent x (List.mem_cons_self _ _)
        · intro x hx
          exact hsent x (List.mem_cons_of_mem _ hx)
      · rw [if_neg htest] at hc
        rcases List.mem_append.mp hc with h | h
        · by_cases hcur : cur.isEmpty
          · simp [hcur] at h
          · simp only [hcur, Bool.false_eq_true, if_false, List.mem_singleton] at h
            subst h
            exact hcs s hs
        · refine ih _ _ _ ?_ ?_ c h s hs
          · intro x hx
            rcases seedBuffer_mem ov cs s0 x hx with h2 | h2
            · exact hcs x h2
            · subst h2
              exact hsent x (List.mem_cons_self _ _)
          · intro x hx
            exact hsent x (List.mem_cons_of_mem _ hx)

/-- Helper: every sentence recorded in any chunk of `split_text_into_chunks`
satisfies the sentence invariant. -/
theorem splitPages_sentences_good (size ov : Nat) :
    ∀ (content : List (Nat × Str)) (cid : Nat),
    ∀ c ∈ splitPages size ov cid content, ∀ s ∈ c.sentences, goodSentence s := by
  intro content
  induction content with
  | nil => intro cid c hc; simp [splitPages] at hc
  | cons pt rest ih =>
      intro cid c hc s hs
      simp only [splitPages] at hc
      rcases List.mem_append.mp hc with h | h
      · exact chunkLoop_sentences_prop goodSentence size ov pt.1 (splitIntoSentences pt.2) cid
          [] [] (by intro x hx; simp at hx)
          (fun x hx => mem_splitIntoSentences_good pt.2 x hx) c h s hs
      · exact ih _ c h s hs

/-- C10: every string returned by `_split_into_sentences` is non-empty, equal
to its own whitespace-trimmed form, strictly longer than 10 characters, and
contains no boundary punctuation; consequently every chunk built by the
chunker is assembled only from such sentences. -/
theorem c10_sentence_invariants :
    (∀ t : Str, ∀ s ∈ splitIntoSentences t, goodSentence s) ∧
    (∀ (size ov : Nat) (content : List (Nat × Str)),
      ∀ c ∈ splitTextIntoChunks size ov content, ∀ s ∈ c.sentences, goodSentence s) := by
  constructor
  · intro t s hs
    exact mem_splitIntoSentences_good t s hs
  · intro size ov content c hc s hs
    exact splitPages_sentences_good size ov content 0 c hc s hs

/-- Witness for C10 on the first sentence of the spec's scenario text. -/
theorem c10_sentence_invariants_witness : goodSentence "ML is great".data :=
  c10_sentence_invariants.1 mlText "ML is great".data (by decide)

/-- C2 counterexample: on the spec's own scenario text with `chunk_size = 5`
and `chunk_overlap = 1`, the chunker emits a chunk holding two sentences and
six words — the overlap-seeded buffer (overlap sentences plus the triggering
sentence) already exceeds `chunk_size`, so a chunk with two or more sentences
can exceed the limit. -/
theorem c2_counterexample :
    ∃ c ∈ splitTextIntoChunks 5 1 [(1, mlText)], 2 ≤ c.sentence_count ∧ 5 < c.word_count := by
  decide

/-- Helper: with zero overlap the loop invariant "a buffer of two or more
sentences has at most `chunk_size` words" is maintained and transferred to
every emitted chunk. -/
theorem chunkLoop_wc_zero_ov (size pg : Nat) :
    ∀ (sentences : List Str) (cid : Nat) (cur : Str) (cs : List Str),
    (2 ≤ cs.length → wordCount cur ≤ size) →
    ∀ c ∈ (chunkLoop size 0 pg cid cur cs sentences).1,
      2 ≤ c.sentence_count → c.word_count ≤ size := by
  intro sentences
  induction sentences with
  | nil =>
      intro cid cur cs hinv c hc hcount
      by_cases hcur : cur.isEmpty
      · simp [chunkLoop, hcur] at hc
      · simp only [chunkLoop, hcur, Bool.false_eq_true, if_false, List.mem_singleton] at hc
        subst hc
        exact hinv hcount
  | cons s0 rest ih =>
      intro cid cur cs hinv c hc hcount
      simp only [chunkLoop] at hc
      by_cases htest : wordCount (if cur.isEmpty then s0 else cur ++ ' ' :: s0) ≤ size
      · rw [if_pos htest] at hc
        exact ih cid _ (cs ++ [s0]) (fun _ => htest) c hc hcount
      · rw [if_neg htest] at hc
        rcases List.mem_append.mp hc with h | h
        · by_cases hcur : cur.isEmpty
          · simp [hcur] at h
          · simp only [hcur, Bool.false_eq_true, if_false, List.mem_singleton] at h
            subst h
            exact hinv hcount
        · rw [seedBuffer_zero] at h
          refine ih _ _ _ ?_ c h hcount
          intro h2
          simp at h2

/-- Helper: the zero-overlap word-count bound across all pages. -/
theorem splitPages_wc_zero_ov (size : Nat) :
    ∀ (content : List (Nat × Str)) (cid : Nat),
    ∀ c ∈ splitPages size 0 cid content, 2 ≤ c.sentence_count → c.word_count ≤ size := by
  intro content
  induction content with
  | nil => intro cid c hc; simp [splitPages] at hc
  | cons pt rest ih =>
      intro cid c hc hcount
      simp only [splitPages] at hc
      rcases List.mem_append.mp hc with h | h
      · exact chunkLoop_wc_zero_ov size pt.1 (splitIntoSentences pt.2) cid [] []
          (by intro h2; simp at h2) c h hcount
      · exact ih _ c h hcount

/-- C2 amended: when `chunk_overlap = 0`, every chunk produced by
`split_text_into_chunks` with at least two sentences has at most `chunk_size`
words (an over-long single sentence is kept whole in its own chunk); with
`chunk_overlap > 0` an overlap-seeded chunk can exceed `chunk_size` even with
two or more sentences, as the counterexample shows. -/
theorem c2_chunk_size_bound (size : Nat) (content : List (Nat × Str)) (c : Chunk)
    (hc : c ∈ splitTextIntoChunks size 0 content) (hcount : 2 ≤ c.sentence_count) :
    c.word_count ≤ size :=
  splitPages_wc_zero_ov size content 0 c hc hcount

/-- Witness for C2's amended claim: the single chunk of the two-sentence
document has two sentences and at most eight words. -/
theorem c2_chunk_size_bound_witness :
    2 ≤ ((splitTextIntoChunks 8 0 [(1, twoSentenceText)]).headI).sentence_count ∧
    ((splitTextIntoChunks 8 0 [(1, twoSentenceText)]).headI).word_count ≤ 8 :=
  ⟨by decide, c2_chunk_size_bound 8 [(1, twoSentenceText)] _ (by decide) (by decide)⟩

/-- Helper: every chunk the page loop emits carries the page number it was
started with. -/
theorem chunkLoop_page (size ov pg : Nat) :
    ∀ (sentences : List Str) (cid : Nat) (cur : Str) (cs : List Str),
    ∀ c ∈ (chunkLoop size ov pg cid cur cs sentences).1, c.page = pg := by
  intro sentences
  induction sentences with
  | nil =>
      intro cid cur cs c hc
      by_cases hcur : cur.isEmpty
      · simp [chunkLoop, hcur] at hc
      · simp only [chunkLoop, hcur, Bool.false_eq_true, if_false, List.mem_singleton] at hc
        subst hc
        rfl
  | cons s0 rest ih =>
      intro cid cur cs c hc
      simp only [chunkLoop] at hc
      by_cases htest : wordCount (if cur.isEmpty then s0 else cur ++ ' ' :: s0) ≤ size
      · rw [if_pos htest] at hc
        exact ih cid _ _ c hc
      · rw [if_neg htest] at hc
        rcases List.mem_append.mp hc with h | h
        · by_cases hcur : cur.isEmpty
          · simp [hcur] at h
          · simp only [hcur, Bool.false_eq_true, if_false, List.mem_singleton] at h
            subst h
            rfl
        · exact ih _ _ _ c h

/-- Helper: every sentence held in the buffer or still to be processed ends up
recorded in some emitted chunk (the final flush closes any non-empty
buffer). -/
theorem chunkLoop_covers (size ov pg : Nat) :
    ∀ (sentences : List Str) (cid : Nat) (cur : Str) (cs : List Str),
    (∀ x ∈ sentences, x ≠ []) →
    (cur.isEmpty = true ↔ cs = []) →
    ∀ s, s ∈ cs ∨ s ∈ sentences →
    ∃ c ∈ (chunkLoop size ov pg cid cur cs sentences).1, s ∈ c.sentences := by
  intro sentences
  induction sentences with
  | nil =>
      intro cid cur cs _ hinv s hmem
      rcases hmem with h | h
      · have hcs : cs ≠ [] := List.ne_nil_of_mem h
        have hcur : ¬cur.isEmpty = true := fun h2 => hcs (hinv.mp h2)
        refine ⟨mkChunk cid cur pg cs, ?_, h⟩
        simp only [chunkLoop, hcur, Bool.false_eq_true, if_false]
        simp
      · simp at h
  | cons s0 rest ih =>
      intro cid cur cs hsent hinv s hmem
      have hs0 : s0 ≠ [] := hsent s0 (List.mem_cons_self _ _)
      have hrest : ∀ x ∈ rest, x ≠ [] := fun x hx => hsent x (List.mem_cons_of_mem _ hx)
      by_cases htest : wordCount (if cur.isEmpty then s0 else cur ++ ' ' :: s0) ≤ size
      · have hinv2 : ((if cur.isEmpty then s0 else cur ++ ' ' :: s0) : Str).isEmpty = true
            ↔ cs ++ [s0] = [] := by
          constructor
          · intro h2
            by_cases hcur : cur.isEmpty
            · rw [if_pos hcur] at h2
              exact absurd (List.isEmpty_iff.mp h2) hs0
            · rw [if_neg hcur] at h2
              rw [List.isEmpty_iff] at h2
              exact absurd h2 (by simp)
          · intro h2
            simp at h2
        obtain ⟨c, hc, hcsent⟩ := ih cid _ (cs ++ [s0]) hrest hinv2 s
          (by
            rcases hmem with h | h
            · exact Or.inl (List.mem_append.mpr (Or.inl h))
            · rcases List.mem_cons.mp h with h2 | h2
              · exact Or.inl (List.mem_append.mpr (Or.inr (by simp [h2])))
              · exact Or.inr h2)
        refine ⟨c, ?_, hcsent⟩
        simp only [chunkLoop, if_pos htest]
        exact hc
      · rcases hmem with h | h
        · have hcs : cs ≠ [] := List.ne_nil_of_mem h
          have hcur : cur.isEmpty = false := by
            cases h2 : cur.isEmpty
            · rfl
            · exact absurd (hinv.mp h2) hcs
          rw [hcur] at htest
          simp only [Bool.false_eq_true, if_false] at htest
          refine ⟨mkChunk cid cur pg cs, ?_, h⟩
          simp only [chunkLoop, hcur, Bool.false_eq_true, if_false, if_neg htest]
          exact List.mem_append.mpr (Or.inl (List.mem_singleton.mpr rfl))
        · have hseedinv : ((seedBuffer ov cs s0).1).isEmpty = true
              ↔ (seedBuffer ov cs s0).2 = [] := by
            rw [seedBuffer_fst_ne ov cs s0 hs0]
            simp [seedBuffer_snd_ne ov cs s0]
          obtain ⟨c, hc, hcsent⟩ := ih (if cur.isEmpty then cid else cid + 1)
            (seedBuffer ov cs s0).1 (seedBuffer ov cs s0).2 hrest hseedinv s
            (by
              rcases List.mem_cons.mp h with h2 | h2
              · exact Or.inl (h2 ▸ seedBuffer_self_mem ov cs s0)
              · exact Or.inr h2)
          refine ⟨c, ?_, hcsent⟩
          simp only [chunkLoop, if_neg htest]
          exact List.mem_append.mpr (Or.inr hc)

/-- Helper: coverage lifted over the page loop. -/
theorem splitPages_covers (size ov : Nat) :
    ∀ (content : List (Nat × Str)) (cid : Nat) (pt : Nat × Str), pt ∈ content →
    ∀ s ∈ splitIntoSentences pt.2,
    ∃ c ∈ splitPages size ov cid content, c.page = pt.1 ∧ s ∈ c.sentences := by
  intro content
  induction content with
  | nil => intro cid pt hpt; simp at hpt
  | cons pt0 rest ih =>
      intro cid pt hpt s hs
      rcases List.mem_cons.mp hpt with h | h
      · subst h
        obtain ⟨c, hc, hcs⟩ := chunkLoop_covers size ov pt.1 (splitIntoSentences pt.2) cid [] []
          (fun x hx => (mem_splitIntoSentences_good pt.2 x hx).1) (by simp) s (Or.inr hs)
        refine ⟨c, ?_, chunkLoop_page size ov pt.1 _ cid [] [] c hc, hcs⟩
        simp only [splitPages, chunkPage]
        exact List.mem_append.mpr (Or.inl hc)
      · obtain ⟨c, hc, hpage, hcs⟩ := ih (chunkPage size ov pt0.1 cid pt0.2).2 pt h s hs
        refine ⟨c, ?_, hpage, hcs⟩
        simp only [splitPages]
        exact List.mem_append.mpr (Or.inr hc)

/-- C5: no sentence is lost by the chunking loop — every sentence
`_split_into_sentences` extracts from a page appears in at least one chunk of
that page produced by `split_text_into_chunks`. -/
theorem c5_no_sentence_lost (size ov : Nat) (content : List (Nat × Str)) (pt : Nat × Str)
    (hpt : pt ∈ content) (s : Str) (hs : s ∈ splitIntoSentences pt.2) :
    ∃ c ∈ splitTextIntoChunks size ov content, c.page = pt.1 ∧ s ∈ c.sentences :=
  splitPages_covers size ov content 0 pt hpt s hs

/-- Witness for C5 on the spec's scenario text. -/
theorem c5_no_sentence_lost_witness :
    ∃ c ∈ splitTextIntoChunks 5 1 [(1, mlText)], c.page = 1 ∧ "AI is powerful".data ∈ c.sentences :=
  c5_no_sentence_lost 5 1 [(1, mlText)] (1, mlText) (by decide) "AI is powerful".data (by decide)

/-- Helper: the positive-overlap form of the seeded buffer. -/
theorem seedBuffer_pos (ov : Nat) (cs : List Str) (s : Str) (hov : 0 < ov) (hcs : cs ≠ []) :
    seedBuffer ov cs s
      = (joinSpace (cs.drop (cs.length - ov)) ++ ' ' :: s, cs.drop (cs.length - ov) ++ [s]) := by
  rw [seedBuffer, if_pos]
  exact ⟨hov, by simpa using hcs⟩

/-- Helper: along the chunks emitted for one page, the overlap tail of each
chunk is a prefix of the next chunk's sentence list, and the first emitted
chunk's sentences extend the incoming buffer. -/
theorem chunkLoop_chain (size ov pg : Nat) (hov : 0 < ov) :
    ∀ (sentences : List Str) (cid : Nat) (cur : Str) (cs : List Str),
    (∀ x ∈ sentences, x ≠ []) →
    (cur.isEmpty = true ↔ cs = []) →
    List.Chain' (fun c c2 =>
        c2.sentences.take (min ov c.sentences.length)
          = c.sentences.drop (c.sentences.length - ov))
      (chunkLoop size ov pg cid cur cs sentences).1 ∧
    (∀ c ∈ (chunkLoop size ov pg cid cur cs sentences).1.head?,
      c.sentences.take cs.length = cs) := by
  intro sentences
  induction sentences with
  | nil =>
      intro cid cur cs _ hinv
      by_cases hcur : cur.isEmpty
      · constructor
        · simp [chunkLoop, hcur]
        · intro c hc
          simp [chunkLoop, hcur] at hc
      · constructor
        · simp only [chunkLoop, hcur, Bool.false_eq_true, if_false]
          exact List.chain'_singleton _
        · intro c hc
          simp only [chunkLoop, hcur, Bool.false_eq_true, if_false,
            List.head?_cons, Option.mem_def, Option.some.injEq] at hc
          subst hc
          exact List.take_length cs
  | cons s0 rest ih =>
      intro cid cur cs hsent hinv
      have hs0 : s0 ≠ [] := hsent s0 (List.mem_cons_self _ _)
      have hrest : ∀ x ∈ rest, x ≠ [] := fun x hx => hsent x (List.mem_cons_of_mem _ hx)
      by_cases htest : wordCount (if cur.isEmpty then s0 else cur ++ ' ' :: s0) ≤ size
      · have hinv2 : ((if cur.isEmpty then s0 else cur ++ ' ' :: s0) : Str).isEmpty = true
            ↔ cs ++ [s0] = [] := by
          constructor
          · intro h2
            by_cases hcur : cur.isEmpty
            · rw [if_pos hcur] at h2
              exact absurd (List.isEmpty_iff.mp h2) hs0
            · rw [if_neg hcur] at h2
              rw [List.isEmpty_iff] at h2
              exact absurd h2 (by simp)
          · intro h2
            simp at h2
        obtain ⟨hchain, hhead⟩ := ih cid _ (cs ++ [s0]) hrest hinv2
        constructor
        · simp only [chunkLoop, if_pos htest]
          exact hchain
        · intro c hc
          simp only [chunkLoop, if_pos htest] at hc
          have h2 := hhead c hc
          have h3 : c.sentences.take cs.length
              = (c.sentences.take (cs ++ [s0]).length).take cs.length := by
            rw [List.take_take]
            congr 1
            simp only [List.length_append, List.length_singleton]
            omega
          rw [h3, h2]
          exact List.take_left' rfl
      · by_cases hcur : cur.isEmpty
        · -- empty buffer: nothing emitted, buffer restarts with the sentence
          have hcs : cs = [] := hinv.mp hcur
          subst hcs
          simp only [hcur] at htest
          simp only [if_true] at htest
          obtain ⟨hchain, hhead⟩ := ih cid (seedBuffer ov [] s0).1 (seedBuffer ov [] s0).2
            hrest (by
              rw [seedBuffer_fst_ne ov [] s0 hs0]
              simp [seedBuffer_snd_ne ov [] s0])
          constructor
          · simp only [chunkLoop, hcur, if_true, if_neg htest, List.nil_append]
            exact hchain
          · intro c hc
            simp
        · -- non-empty buffer is closed and the new buffer is overlap-seeded
          have hcs : cs ≠ [] := fun h2 => by
            rw [hinv.mpr h2] at hcur
            exact hcur rfl
          have hseedp := seedBuffer_pos ov cs s0 hov hcs
          obtain ⟨hchain, hhead⟩ := ih (cid + 1) (seedBuffer ov cs s0).1 (seedBuffer ov cs s0).2
            hrest (by
              rw [seedBuffer_fst_ne ov cs s0 hs0]
              simp [seedBuffer_snd_ne ov cs s0])
          have hcur2 : cur.isEmpty = false := by
            cases h2 : cur.isEmpty
            · rfl
            · exact absurd h2 hcur
          rw [hcur2] at htest
          simp only [Bool.false_eq_true, if_false] at htest
          constructor
          · simp only [chunkLoop, hcur2, Bool.false_eq_true, if_false, if_neg htest,
              List.singleton_append]
            rw [List.chain'_cons']
            constructor
            · intro y hy
              have h2 := hhead y hy
              rw [hseedp] at h2
              have hlen : ((cs.drop (cs.length - ov)) ++ [s0]).length
                  = (cs.drop (cs.length - ov)).length + 1 := by simp
              have h3 : y.sentences.take (cs.drop (cs.length - ov)).length
                  = cs.drop (cs.length - ov) := by
                have h4 : y.sentences.take (cs.drop (cs.length - ov)).length
                    = (y.sentences.take ((cs.drop (cs.length - ov)) ++ [s0]).length).take
                        (cs.drop (cs.length - ov)).length := by
                  rw [List.take_take]
                  congr 1
                  rw [hlen]
                  omega
                rw [h4, h2]
                exact List.take_left' rfl
              show y.sentences.take (min ov (mkChunk cid cur pg cs).sentences.length)
                  = (mkChunk cid cur pg cs).sentences.drop
                      ((mkChunk cid cur pg cs).sentences.length - ov)
              have hsents : (mkChunk cid cur pg cs).sentences = cs := rfl
              rw [hsents]
              have hmin : min ov cs.length = (cs.drop (cs.length - ov)).length := by
                rw [List.length_drop]
                omega
              rw [hmin]
              exact h3
            · exact hchain
          · intro c hc
            simp only [chunkLoop, hcur2, Bool.false_eq_true, if_false, if_neg htest,
              List.singleton_append, List.head?_cons, Option.mem_def, Option.some.injEq] at hc
            subst hc
            exact List.take_length cs

/-- C4: for every page and every positive overlap, each pair of consecutive
chunks produced for that page satisfies the sentence-overlap contract: the
last `min(overlap, sentence_count)` sentences of a chunk reappear, in order,
as the leading sentences of the next chunk. -/
theorem c4_overlap_prefix (size ov pg cid : Nat) (text : Str) (hov : 0 < ov) :
    List.Chain' (fun c c2 =>
        c2.sentences.take (min ov c.sentences.length)
          = c.sentences.drop (c.sentences.length - ov))
      (chunkPage size ov pg cid text).1 :=
  (chunkLoop_chain size ov pg hov (splitIntoSentences text) cid [] []
    (fun x hx => (mem_splitIntoSentences_good text x hx).1) (by simp)).1

/-- Witness for C4 on the spec's scenario page with overlap 1. -/

theorem c4_overlap_prefix_witness :
    List.Chain' (fun c c2 =>
        c2.sentences.take (min 1 c.sentences.length)
          = c.sentences.drop (c.sentences.length - 1))
      (chunkPage 5 1 1 0 mlText).1 :=
  c4_overlap_prefix 5 1 1 0 mlText (by decide)

/-- Helper: a successful re-interleaving has one vector per cleaned text. -/
theorem reinterleave_length (dim : Nat) :
    ∀ (cleaned : List Str) (resp : List Vec) (out : List Vec),
    reinterleave dim cleaned resp = some out → out.length = cleaned.length := by
  intro cleaned
  induction cleaned with
  | nil =>
      intro resp out h
      simp [reinterleave] at h
      subst h
      rfl
  | cons c0 cs ih =>
      intro resp out h
      by_cases hc : c0.isEmpty
      · simp only [reinterleave] at h
        rw [if_pos hc, Option.map_eq_some'] at h
        obtain ⟨out1, hout1, rfl⟩ := h
        simpa using ih resp out1 hout1
      · simp only [reinterleave] at h
        rw [if_neg hc] at h
        cases resp with
        | nil => simp at h
        | cons v vs =>
            simp only [Option.map_eq_some'] at h
            obtain ⟨out1, hout1, rfl⟩ := h
            simpa using ih vs out1 hout1

/-- Helper: re-interleaving succeeds when the provider returned at least one
vector per valid text. -/
theorem reinterleave_isSome (dim : Nat) :
    ∀ (cleaned : List Str) (resp : List Vec),
    (cleaned.filter (fun c => !c.isEmpty)).length ≤ resp.length →
    (reinterleave dim cleaned resp).isSome := by
  intro cleaned
  induction cleaned with
  | nil => intro resp _; simp [reinterleave]
  | cons c0 cs ih =>
      intro resp hlen
      by_cases hc : c0.isEmpty
      · simp only [reinterleave]
        rw [if_pos hc]
        have h2 := ih resp (by rwa [List.filter_cons, if_neg (by simp [hc])] at hlen)
        obtain ⟨out1, hout1⟩ := Option.isSome_iff_exists.mp h2
        rw [hout1]
        rfl
      · simp only [reinterleave]
        rw [if_neg hc]
        cases resp with
        | nil =>
            rw [List.filter_cons, if_pos (by simp [hc])] at hlen
            simp at hlen
        | cons v vs =>
            have h2 := ih vs (by
              rw [List.filter_cons, if_pos (by simp [hc])] at hlen
              simpa using hlen)
            obtain ⟨out1, hout1⟩ := Option.isSome_iff_exists.mp h2
            show (Option.map (fun out => v :: out) (reinterleave dim cs vs)).isSome = true
            rw [hout1]
            rfl

/-- Helper: the re-interleaved output holds the zero vector at filtered
positions and the provider's next vector, in order, at valid positions. -/
theorem reinterleave_get (dim : Nat) :
    ∀ (cleaned : List Str) (resp : List Vec) (out : List Vec),
    reinterleave dim cleaned resp = some out → ∀ (i : Nat) (c : Str), cleaned.get? i = some c →
    (c.isEmpty = true → out.get? i = some (zeroVec dim)) ∧
    (c.isEmpty = false →
      out.get? i = resp.get? ((cleaned.take i).filter (fun x => !x.isEmpty)).length) := by
  intro cleaned
  induction cleaned with
  | nil => intro resp out _ i c hi; simp at hi
  | cons c0 cs ih =>
      intro resp out h i c hi
      by_cases hc : c0.isEmpty
      · simp only [reinterleave] at h
        rw [if_pos hc, Option.map_eq_some'] at h
        obtain ⟨out1, hout1, rfl⟩ := h
        cases i with
        | zero =>
            simp only [List.get?_cons_zero, Option.some.injEq] at hi
            subst hi
            constructor
            · intro _; rfl
            · intro hcf
              rw [hc] at hcf
              cases hcf
        | succ i =>
            simp only [List.get?_cons_succ] at hi
            have hih := ih resp out1 hout1 i c hi
            constructor
            · intro hce
              simpa using hih.1 hce
            · intro hcf
              have h2 := hih.2 hcf
              rw [List.get?_cons_succ, h2]
              congr 1
              rw [List.take_succ_cons, List.filter_cons, if_neg (by simp [hc])]
      · simp only [reinterleave] at h
        rw [if_neg hc] at h
        cases resp with
        | nil => simp at h
        | cons v vs =>
            simp only [Option.map_eq_some'] at h
            obtain ⟨out1, hout1, rfl⟩ := h
            cases i with
            | zero =>
                simp only [List.get?_cons_zero, Option.some.injEq] at hi
                subst hi
                constructor
                · intro hce
                  rw [hce] at hc
                  cases hc rfl
                · intro _
                  simp
            | succ i =>
                simp only [List.get?_cons_succ] at hi
                have hih := ih vs out1 hout1 i c hi
                constructor
                · intro hce
                  simpa using hih.1 hce
                · intro hcf
                  have h2 := hih.2 hcf
                  rw [List.get?_cons_succ, h2]
                  rw [List.take_succ_cons, List.filter_cons, if_pos (by simp [hc])]
                  simp

/-- Helper: `_process_batch` always answers one vector per input text. -/
theorem processBatch_length (dim : Nat) (provider : List Str → Option (List Vec))
    (texts : List Str) : (processBatch dim provider texts).length = texts.length := by
  rw [processBatch]
  by_cases hv : ((texts.map cleanText).filter (fun c => !c.isEmpty)).isEmpty
  · rw [if_pos hv]
    simp
  · rw [if_neg hv]
    cases hp : provider ((texts.map cleanText).filter (fun c => !c.isEmpty)) with
    | none => simp
    | some resp =>
        show (match reinterleave dim (texts.map cleanText) resp with
          | some out => out
          | none => List.replicate texts.length (zeroVec dim)).length = texts.length
        cases hr : reinterleave dim (texts.map cleanText) resp with
        | none => simp
        | some out =>
            have := reinterleave_length dim (texts.map cleanText) resp out hr
            simpa using this

/-- Helper: a failed provider call zeroes the whole batch. -/
theorem processBatch_fail (dim : Nat) (provider : List Str → Option (List Vec))
    (texts : List Str)
    (hfail : provider ((texts.map cleanText).filter (fun c => !c.isEmpty)) = none) :
    processBatch dim provider texts = List.replicate texts.length (zeroVec dim) := by
  rw [processBatch]
  by_cases hv : ((texts.map cleanText).filter (fun c => !c.isEmpty)).isEmpty
  · rw [if_pos hv]
  · rw [if_neg hv, hfail]

/-- Helper: a text cleaning to empty gets the zero vector at its position. -/
theorem processBatch_empty_pos (dim : Nat) (provider : List Str → Option (List Vec))
    (texts : List Str) (i : Nat) (t : Str) (hi : texts.get? i = some t)
    (hclean : cleanText t = []) :
    (processBatch dim provider texts).get? i = some (zeroVec dim) := by
  have hlen : i < texts.length := List.get?_eq_some.mp hi |>.1
  have hcln : (texts.map cleanText).get? i = some (cleanText t) := by
    rw [List.get?_map, hi]
    rfl
  have hrep : (List.replicate texts.length (zeroVec dim)).get? i = some (zeroVec dim) := by
    rw [List.get?_eq_getElem?]
    exact List.getElem?_replicate_of_lt hlen
  rw [processBatch]
  by_cases hv : ((texts.map cleanText).filter (fun c => !c.isEmpty)).isEmpty
  · rw [if_pos hv]
    exact hrep
  · rw [if_neg hv]
    cases hp : provider ((texts.map cleanText).filter (fun c => !c.isEmpty)) with
    | none => exact hrep
    | some resp =>
        show (match reinterleave dim (texts.map cleanText) resp with
          | some out => out
          | none => List.replicate texts.length (zeroVec dim)).get? i = some (zeroVec dim)
        cases hr : reinterleave dim (texts.map cleanText) resp with
        | none => exact hrep
        | some out =>
            have h2 := (reinterleave_get dim (texts.map cleanText) resp out hr i
              (cleanText t) hcln).1 (by rw [hclean]; rfl)
            exact h2

/-- Helper: a valid position receives the provider vector whose rank is the
number of valid positions before it. -/
theorem processBatch_valid_pos (dim : Nat) (provider : List Str → Option (List Vec))
    (texts : List Str) (resp : List Vec)
    (hp : provider ((texts.map cleanText).filter (fun c => !c.isEmpty)) = some resp)
    (hlen : ((texts.map cleanText).filter (fun c => !c.isEmpty)).length ≤ resp.length)
    (i : Nat) (t : Str) (hi : texts.get? i = some t) (hclean : cleanText t ≠ []) :
    (processBatch dim provider texts).get? i
      = resp.get? (((texts.map cleanText).take i).filter (fun c => !c.isEmpty)).length := by
  have hcln : (texts.map cleanText).get? i = some (cleanText t) := by
    rw [List.get?_map, hi]
    rfl
  have hmem : cleanText t ∈ (texts.map cleanText).filter (fun c => !c.isEmpty) := by
    rw [List.mem_filter]
    refine ⟨List.get?_mem hcln, by simpa using hclean⟩
  have hv : ¬((texts.map cleanText).filter (fun c => !c.isEmpty)).isEmpty = true := by
    rw [List.isEmpty_iff]
    exact List.ne_nil_of_mem hmem
  rw [processBatch, if_neg hv, hp]
  show (match reinterleave dim (texts.map cleanText) resp with
    | some out => out
    | none => List.replicate texts.length (zeroVec dim)).get? i
      = resp.get? (((texts.map cleanText).take i).filter (fun c => !c.isEmpty)).length
  have hsome := reinterleave_isSome dim (texts.map cleanText) resp hlen
  obtain ⟨out, hout⟩ := Option.isSome_iff_exists.mp hsome
  rw [hout]
  exact (reinterleave_get dim (texts.map cleanText) resp out hout i (cleanText t) hcln).2
    (by simpa using hclean)

/-- Helper: the batching loop on no texts emits nothing. -/
theorem genAux_nil (dim : Nat) (provider : List Str → Option (List Vec)) (bs fuel : Nat) :
    genAux dim provider bs fuel [] = [] := by
  cases fuel <;> rfl

/-- Helper: any fuel bound at least the number of texts gives the same result,
so the fuel in `genAux` is only a termination device. -/
theorem genAux_fuel_irrel (dim : Nat) (provider : List Str → Option (List Vec)) (bs : Nat)
    (hbs : 0 < bs) :
    ∀ (fuel fuel2 : Nat) (texts : List Str), texts.length ≤ fuel → texts.length ≤ fuel2 →
    genAux dim provider bs fuel texts = genAux dim provider bs fuel2 texts := by
  intro fuel
  induction fuel with
  | zero =>
      intro fuel2 texts h1 _
      have : texts = [] := List.eq_nil_of_length_eq_zero (Nat.le_zero.mp h1)
      subst this
      rw [genAux_nil, genAux_nil]
  | succ f ih =>
      intro fuel2 texts h1 h2
      cases texts with
      | nil => rw [genAux_nil, genAux_nil]
      | cons t ts =>
          cases fuel2 with
          | zero => simp at h2
          | succ f2 =>
              show processBatch dim provider ((t :: ts).take bs) ++
                  genAux dim provider bs f ((t :: ts).drop bs)
                = processBatch dim provider ((t :: ts).take bs) ++
                  genAux dim provider bs f2 ((t :: ts).drop bs)
              congr 1
              refine ih f2 ((t :: ts).drop bs) ?_ ?_
              · simp only [List.length_drop, List.length_cons]
                simp only [List.length_cons] at h1
                omega
              · simp only [List.length_drop, List.length_cons]
                simp only [List.length_cons] at h2
                omega

/-- Helper: one step of the batching loop. -/
theorem genEmb_cons (dim : Nat) (provider : List Str → Option (List Vec)) (bs : Nat)
    (hbs : 0 < bs) (texts : List Str) (hne : texts ≠ []) :
    generateEmbeddingsBatch dim provider bs texts
      = processBatch dim provider (texts.take bs) ++
        generateEmbeddingsBatch dim provider bs (texts.drop bs) := by
  cases texts with
  | nil => exact absurd rfl hne
  | cons t ts =>
      show genAux dim provider bs (t :: ts).length (t :: ts)
        = processBatch dim provider ((t :: ts).take bs) ++
          genAux dim provider bs ((t :: ts).drop bs).length ((t :: ts).drop bs)
      rw [List.length_cons]
      show processBatch dim provider ((t :: ts).take bs) ++
          genAux dim provider bs ts.length ((t :: ts).drop bs)
        = processBatch dim provider ((t :: ts).take bs) ++
          genAux dim provider bs ((t :: ts).drop bs).length ((t :: ts).drop bs)
      congr 1
      refine genAux_fuel_irrel dim provider bs hbs ts.length _ ((t :: ts).drop bs) ?_ ?_
      · simp only [List.length_drop, List.length_cons]
        omega
      · exact Nat.le_refl _

/-- Helper: `generate_embeddings_batch` answers one vector per text. -/
theorem genEmb_length (dim : Nat) (provider : List Str → Option (List Vec)) (bs : Nat)
    (hbs : 0 < bs) (texts : List Str) :
    (generateEmbeddingsBatch dim provider bs texts).length = texts.length := by
  have H : ∀ (n : Nat) (ts : List Str), ts.length ≤ n →
      (generateEmbeddingsBatch dim provider bs ts).length = ts.length := by
    intro n
    induction n with
    | zero =>
        intro ts h
        have h2 : ts = [] := List.eq_nil_of_length_eq_zero (Nat.le_zero.mp h)
        subst h2
        rfl
    | succ n ih =>
        intro ts h
        cases ts with
        | nil => rfl
        | cons t ts2 =>
            rw [genEmb_cons dim provider bs hbs _ (by simp)]
            rw [List.length_append, processBatch_length]
            rw [ih ((t :: ts2).drop bs) (by
              simp only [List.length_drop, List.length_cons]
              simp only [List.length_cons] at h
              omega)]
            simp only [List.length_take, List.length_drop, List.length_cons]
            omega
  exact H texts.length texts (Nat.le_refl _)

/-- Helper: the zero-vector guarantee for empty-cleaning texts, across
batches. -/
theorem genEmb_empty_pos (dim : Nat) (provider : List Str → Option (List Vec)) (bs : Nat)
    (hbs : 0 < bs) (texts : List Str) (i : Nat) (t : Str)
    (hi : texts.get? i = some t) (hclean : cleanText t = []) :
    (generateEmbeddingsBatch dim provider bs texts).get? i = some (zeroVec dim) := by
  have H : ∀ (n : Nat) (ts : List Str) (j : Nat) (u : Str), ts.length ≤ n →
      ts.get? j = some u → cleanText u = [] →
      (generateEmbeddingsBatch dim provider bs ts).get? j = some (zeroVec dim) := by
    intro n
    induction n with
    | zero =>
        intro ts j u h hj _
        have h2 : ts = [] := List.eq_nil_of_length_eq_zero (Nat.le_zero.mp h)
        subst h2
        simp at hj
    | succ n ih =>
        intro ts j u h hj hu
        cases ts with
        | nil => simp at hj
        | cons t0 ts2 =>
            have hjlen : j < (t0 :: ts2).length := (List.get?_eq_some.mp hj).1
            rw [genEmb_cons dim provider bs hbs _ (by simp)]
            have hplen : (processBatch dim provider ((t0 :: ts2).take bs)).length
                = min bs (t0 :: ts2).length := by
              rw [processBatch_length]
              simp [Nat.min_comm]
            by_cases hj2 : j < (processBatch dim provider ((t0 :: ts2).take bs)).length
            · rw [List.get?_append hj2]
              refine processBatch_empty_pos dim provider _ j u ?_ hu
              rw [List.get?_take ?_]
              · exact hj
              · rw [hplen] at hj2
                omega
            · push_neg at hj2
              rw [List.get?_append_right hj2]
              rw [hplen] at hj2
              rw [hplen]
              have hbslen : bs ≤ (t0 :: ts2).length := by
                rcases Nat.le_total bs (t0 :: ts2).length with hle | hle
                · exact hle
                · rw [Nat.min_eq_right hle] at hj2
                  omega
              rw [Nat.min_eq_left hbslen] at hj2 ⊢
              refine ih ((t0 :: ts2).drop bs) (j - bs) u ?_ ?_ hu
              · simp only [List.length_drop, List.length_cons]
                simp only [List.length_cons] at h
                omega
              · rw [List.get?_eq_getElem?, List.getElem?_drop]
                rw [Nat.add_sub_cancel' hj2]
                rw [← List.get?_eq_getElem?]
                exact hj
  exact H texts.length texts i t (Nat.le_refl _) hi hclean

/-- Helper: `_process_batch` of no texts is empty. -/
theorem processBatch_nil (dim : Nat) (provider : List Str → Option (List Vec)) :
    processBatch dim provider [] = [] := rfl

/-- Helper: the j-th output slice of the batching loop is `_process_batch` of
the j-th input slice. -/
theorem genEmb_slice (dim : Nat) (provider : List Str → Option (List Vec)) (bs : Nat)
    (hbs : 0 < bs) :
    ∀ (j : Nat) (texts : List Str),
    ((generateEmbeddingsBatch dim provider bs texts).drop (j * bs)).take bs
      = processBatch dim provider ((texts.drop (j * bs)).take bs) := by
  intro j
  induction j with
  | zero =>
      intro texts
      simp only [Nat.zero_mul, List.drop_zero]
      cases texts with
      | nil =>
          rw [show generateEmbeddingsBatch dim provider bs [] = [] from rfl]
          rw [List.take_nil, List.take_nil, processBatch_nil]
      | cons t ts =>
          rw [genEmb_cons dim provider bs hbs _ (by simp)]
          by_cases hlen : bs ≤ (t :: ts).length
          · have ha : (processBatch dim provider ((t :: ts).take bs)).length = bs := by
              rw [processBatch_length, List.length_take]
              omega
            exact List.take_left' ha
          · push_neg at hlen
            have hdrop : (t :: ts).drop bs = [] := List.drop_of_length_le (Nat.le_of_lt hlen)
            rw [hdrop]
            show ((processBatch dim provider ((t :: ts).take bs)) ++
              generateEmbeddingsBatch dim provider bs []).take bs = _
            rw [show generateEmbeddingsBatch dim provider bs [] = [] from rfl]
            rw [List.append_nil]
            refine List.take_of_length_le ?_
            rw [processBatch_length, List.length_take]
            omega
  | succ j ih =>
      intro texts
      cases texts with
      | nil =>
          rw [show generateEmbeddingsBatch dim provider bs [] = [] from rfl]
          rw [List.drop_nil, List.take_nil, List.drop_nil, List.take_nil, processBatch_nil]
      | cons t ts =>
          rw [genEmb_cons dim provider bs hbs _ (by simp)]
          by_cases hlen : bs ≤ (t :: ts).length
          · have ha : (processBatch dim provider ((t :: ts).take bs)).length = bs := by
              rw [processBatch_length, List.length_take]
              omega
            have hmul : (j + 1) * bs = bs + j * bs := by ring
            rw [hmul]
            rw [← List.drop_drop]
            rw [List.drop_left' ha]
            rw [ih ((t :: ts).drop bs)]
            rw [List.drop_drop]
          · push_neg at hlen
            have hdrop : (t :: ts).drop bs = [] := List.drop_of_length_le (Nat.le_of_lt hlen)
            have hdrop2 : (t :: ts).drop ((j + 1) * bs) = [] := by
              refine List.drop_of_length_le ?_
              have : bs ≤ (j + 1) * bs := by
                have := Nat.one_le_iff_ne_zero.mpr (Nat.pos_iff_ne_zero.mp hbs)
                calc bs = 1 * bs := by ring
                _ ≤ (j + 1) * bs := Nat.mul_le_mul_right bs (by omega)
              omega
            rw [hdrop, hdrop2]
            rw [show generateEmbeddingsBatch dim provider bs [] = [] from rfl]
            rw [List.append_nil, List.take_nil, processBatch_nil]
            have hplen : (processBatch dim provider ((t :: ts).take bs)).length ≤ (j + 1) * bs := by
              rw [processBatch_length, List.length_take]
              have : bs ≤ (j + 1) * bs := by
                calc bs = 1 * bs := by ring
                _ ≤ (j + 1) * bs := Nat.mul_le_mul_right bs (by omega)
              omega
            rw [List.drop_of_length_le hplen]
            rw [List.take_nil]

/-- Helper: `_process_batch` consults the provider only on the list of
non-empty cleaned texts. -/
theorem processBatch_congr (dim : Nat) (p p2 : List Str → Option (List Vec))
    (hag : ∀ l : List Str, ([] : Str) ∉ l → p l = p2 l) (ts : List Str) :
    processBatch dim p ts = processBatch dim p2 ts := by
  rw [processBatch, processBatch]
  have hv : p ((ts.map cleanText).filter (fun c => !c.isEmpty))
      = p2 ((ts.map cleanText).filter (fun c => !c.isEmpty)) := by
    refine hag _ ?_
    intro hmem
    rw [List.mem_filter] at hmem
    simpa using hmem.2
  rw [hv]

/-- Helper: providers agreeing on lists of non-empty texts give identical
batch output. -/
theorem genEmb_congr (dim : Nat) (p p2 : List Str → Option (List Vec)) (bs : Nat)
    (hbs : 0 < bs) (hag : ∀ l : List Str, ([] : Str) ∉ l → p l = p2 l) (texts : List Str) :
    generateEmbeddingsBatch dim p bs texts = generateEmbeddingsBatch dim p2 bs texts := by
  have H : ∀ (n : Nat) (ts : List Str), ts.length ≤ n →
      generateEmbeddingsBatch dim p bs ts = generateEmbeddingsBatch dim p2 bs ts := by
    intro n
    induction n with
    | zero =>
        intro ts h
        have h2 : ts = [] := List.eq_nil_of_length_eq_zero (Nat.le_zero.mp h)
        subst h2
        rfl
    | succ n ih =>
        intro ts h
        cases ts with
        | nil => rfl
        | cons t ts2 =>
            rw [genEmb_cons dim p bs hbs _ (by simp), genEmb_cons dim p2 bs hbs _ (by simp)]
            rw [processBatch_congr dim p p2 hag]
            rw [ih ((t :: ts2).drop bs) (by
              simp only [List.length_drop, List.length_cons]
              simp only [List.length_cons] at h
              omega)]
  exact H texts.length texts (Nat.le_refl _)

/-- C1: `generate_embeddings_batch` (embed_many).  For every text list and
positive batch size: (1) the output has exactly one vector per input text;
(2) a text that cleans to empty yields the zero vector at its position;
(3) the output decomposes batch-wise — the j-th output slice is exactly
`_process_batch` of the j-th input slice, so one batch never affects another;
(4) a failed provider call turns that batch, and only that batch, into zero
vectors; (5) within a batch answered by the provider, each valid position i
receives the response vector whose rank equals the number of valid positions
before i (the re-interleaving contract); (6) texts that clean to empty are
never sent to the provider: any two providers agreeing on lists of non-empty
texts give identical output. -/
theorem c1_embed_many_contract (dim bs : Nat) (hbs : 0 < bs)
    (provider : List Str → Option (List Vec)) (texts : List Str) :
    (generateEmbeddingsBatch dim provider bs texts).length = texts.length ∧
    (∀ (i : Nat) (t : Str), texts.get? i = some t → cleanText t = [] →
      (generateEmbeddingsBatch dim provider bs texts).get? i = some (zeroVec dim)) ∧
    (∀ j : Nat, ((generateEmbeddingsBatch dim provider bs texts).drop (j * bs)).take bs
      = processBatch dim provider ((texts.drop (j * bs)).take bs)) ∧
    (∀ j : Nat,
      provider ((((texts.drop (j * bs)).take bs).map cleanText).filter (fun c => !c.isEmpty))
          = none →
      ((generateEmbeddingsBatch dim provider bs texts).drop (j * bs)).take bs
        = List.replicate ((texts.drop (j * bs)).take bs).length (zeroVec dim)) ∧
    (∀ (ts : List Str) (resp : List Vec),
      provider ((ts.map cleanText).filter (fun c => !c.isEmpty)) = some resp →
      ((ts.map cleanText).filter (fun c => !c.isEmpty)).length ≤ resp.length →
      ∀ (i : Nat) (t : Str), ts.get? i = some t → cleanText t ≠ [] →
      (processBatch dim provider ts).get? i
        = resp.get? (((ts.map cleanText).take i).filter (fun c => !c.isEmpty)).length) ∧
    (∀ p2 : List Str → Option (List Vec), (∀ l : List Str, ([] : Str) ∉ l → provider l = p2 l) →
      generateEmbeddingsBatch dim provider bs texts
        = generateEmbeddingsBatch dim p2 bs texts) := by
  refine ⟨genEmb_length dim provider bs hbs texts,
    fun i t hi hc => genEmb_empty_pos dim provider bs hbs texts i t hi hc,
    fun j => genEmb_slice dim provider bs hbs j texts,
    fun j hfail => ?_,
    fun ts resp hp hlen i t hi hc =>
      processBatch_valid_pos dim provider ts resp hp hlen i t hi hc,
    fun p2 hag => genEmb_congr dim provider p2 bs hbs hag texts⟩
  rw [genEmb_slice dim provider bs hbs j texts,
    processBatch_fail dim provider _ hfail]

/-- Witness for C1 at a concrete provider and text list. -/
theorem c1_embed_many_contract_witness :
    (generateEmbeddingsBatch 2 (fun l => some (l.map (fun _ => [1, 1]))) 2
      ["ab cd".data, "".data, "ef".data]).length = 3 :=
  (c1_embed_many_contract 2 2 (by decide) (fun l => some (l.map (fun _ => [1, 1])))
    ["ab cd".data, "".data, "ef".data]).1

/-- C9: `generate_embeddings_for_chunks` builds its output as copies — the
output has one element per input chunk, and each output element agrees with
the corresponding input chunk on every pre-existing field (`chunk_id`, `text`,
`metadata`) while carrying exactly the added fields `embedding` (the batch
result at the same position), `embedding_model`, and `embedding_dimension`
(the attached embedding's length).  In the purely functional model the inputs
are values, so the source's no-mutation guarantee is expressed by this
copy-correspondence. -/
theorem c9_chunks_enriched_copy (dim : Nat) (provider : List Str → Option (List Vec))
    (model : String) (chunks : List ChunkIn) :
    (generateEmbeddingsForChunks dim provider model chunks).length = chunks.length ∧
    (∀ (i : Nat) (c : ChunkIn), chunks.get? i = some c →
      ∃ e : ChunkOut,
        (generateEmbeddingsForChunks dim provider model chunks).get? i = some e ∧
        e.chunk_id = c.chunk_id ∧ e.text = c.text ∧ e.metadata = c.metadata ∧
        (generateEmbeddingsBatch dim provider 100 (chunks.map (fun x => x.text))).get? i
          = some e.embedding ∧
        e.embedding_model = model ∧ e.embedding_dimension = e.embedding.length) := by
  have hembLen : (generateEmbeddingsBatch dim provider 100 (chunks.map (fun x => x.text))).length
      = chunks.length := by
    rw [genEmb_length dim provider 100 (by decide) (chunks.map (fun x => x.text))]
    exact List.length_map _ _
  constructor
  · rw [generateEmbeddingsForChunks]
    rw [List.length_map, List.length_zip, hembLen]
    exact Nat.min_self _
  · intro i c hi
    have hilen : i < chunks.length := (List.get?_eq_some.mp hi).1
    have hemb : ∃ v, (generateEmbeddingsBatch dim provider 100
        (chunks.map (fun x => x.text))).get? i = some v := by
      rw [List.get?_eq_getElem?]
      have : i < (generateEmbeddingsBatch dim provider 100
          (chunks.map (fun x => x.text))).length := by
        rw [hembLen]
        exact hilen
      exact ⟨_, List.getElem?_eq_getElem this⟩
    obtain ⟨v, hv⟩ := hemb
    have hzip : (chunks.zip (generateEmbeddingsBatch dim provider 100
        (chunks.map (fun x => x.text)))).get? i = some (c, v) := by
      rw [List.get?_eq_getElem?]
      refine List.getElem?_zip_eq_some.mpr ⟨?_, ?_⟩
      · rw [← List.get?_eq_getElem?]
        exact hi
      · rw [← List.get?_eq_getElem?]
        exact hv
    refine ⟨ChunkOut.mk c.chunk_id c.text c.metadata v model v.length, ?_,
      rfl, rfl, rfl, hv, rfl, rfl⟩
    rw [generateEmbeddingsForChunks]
    rw [List.get?_map]
    rw [hzip]
    rfl

/-- Witness for C9 at a concrete chunk list and provider. -/
theorem c9_chunks_enriched_copy_witness :
    ∃ e : ChunkOut,
      (generateEmbeddingsForChunks 2 (fun l => some (l.map (fun _ => [1, 1]))) "m"
        [⟨0, "hello".data, []⟩]).get? 0 = some e ∧
      e.chunk_id = (⟨0, "hello".data, []⟩ : ChunkIn).chunk_id ∧
      e.text = (⟨0, "hello".data, []⟩ : ChunkIn).text ∧
      e.metadata = (⟨0, "hello".data, []⟩ : ChunkIn).metadata ∧
      (generateEmbeddingsBatch 2 (fun l => some (l.map (fun _ => [1, 1]))) 100
        (([⟨0, "hello".data, []⟩] : List ChunkIn).map (fun x => x.text))).get? 0
        = some e.embedding ∧
      e.embedding_model = "m" ∧ e.embedding_dimension = e.embedding.length :=
  (c9_chunks_enriched_copy 2 (fun l => some (l.map (fun _ => [1, 1]))) "m"
    [⟨0, "hello".data, []⟩]).2 0 ⟨0, "hello".data, []⟩ rfl
